import Mathlib

set_option maxRecDepth 10000

/-!
Shallow embedding of the annotation-resolution core of `zaphodtex/zaphod.py`
(the `Zaphod` class).  Documents are lists of characters; the interactive
decision provider is a total function `Nat → Decision` (the interactive loop
re-prompts on invalid input, so a decision is always eventually produced).
The scanner state of `Zaphod.revise` satisfies `head = tail` at the top of
every loop iteration, so the loop is modelled on the remaining suffix of the
document, with a fuel parameter bounding the number of iterations (each
iteration consumes at least one character of the suffix).
-/

namespace Zaphod

/-- ASCII whitespace matched by the `\s` class of the Python regexes. -/
def isSpace (c : Char) : Bool :=
  c == ' ' || c == '\t' || c == '\n' || c == '\r' || c == '\x0b' || c == '\x0c'

/-- Literal core of `self.rxDelbegin = re.compile(r"\\DIFdelbegin\s*")`. -/
def delBeginLit : List Char := "\\DIFdelbegin".toList

/-- Literal core of `self.rxDelend = re.compile(r"\\DIFdelend\s*")`. -/
def delEndLit : List Char := "\\DIFdelend".toList

/-- Literal core of `self.rxAddbegin = re.compile(r"\\DIFaddbegin\s*")`. -/
def addBeginLit : List Char := "\\DIFaddbegin".toList

/-- Literal core of `self.rxAddend = re.compile(r"\\DIFaddend\s*")`. -/
def addEndLit : List Char := "\\DIFaddend".toList

/-- Opening literal of `self.rPreamble` (the part before `.*`). -/
def preBeginLit : List Char := "%DIF PREAMBLE EXTENSION ADDED BY LATEXDIFF".toList

/-- Closing literal of `self.rPreamble` (the part after `.*`, ending in a newline). -/
def preEndLit : List Char := "%DIF END PREAMBLE EXTENSION ADDED BY LATEXDIFF\n".toList

/-- Literal head of the inline wrapper pattern `r"\\DIFdel\{(.*?)\}"`. -/
def delMacroLit : List Char := "\\DIFdel\x7b".toList

/-- Literal head of the inline wrapper pattern `r"\\DIFadd\{(.*?)\}"`. -/
def addMacroLit : List Char := "\\DIFadd\x7b".toList

/-- Index of the first occurrence of `pat` in a list (`re.search(...).start()`
for a plain literal pattern). -/
def findLit (pat : List Char) : List Char → Option Nat
  | [] => if pat = [] then some 0 else none
  | c :: rest =>
      if pat.isPrefixOf (c :: rest) then some 0
      else (findLit pat rest).map (· + 1)

/-- Length of the leading whitespace run (what `\s*` consumes after a literal). -/
def wsRun : List Char → Nat
  | [] => 0
  | c :: rest => if isSpace c then wsRun rest + 1 else 0

/-- End position of a regex match `lit ++ \s*` that starts at `s` in `rest`
(`match.end()` relative to the search start). -/
def tokenMatchEnd (lit : List Char) (rest : List Char) (s : Nat) : Nat :=
  s + lit.length + wsRun (rest.drop (s + lit.length))

/-- Index of the last occurrence of `pat` in a list. -/
def findLitLast (pat : List Char) : List Char → Option Nat
  | [] => none
  | c :: rest =>
      match findLitLast pat rest with
      | some j => some (j + 1)
      | none => if pat.isPrefixOf (c :: rest) then some 0 else none

/-- Search for `self.rxPreamble` (pattern `preBeginLit .* preEndLit` with
DOTALL): the match starts at the first occurrence of the begin literal that is
followed by an occurrence of the end literal, and — the `.*` being greedy —
extends to the end of the last such occurrence.  Returns
`(match.start(), match.end())`. -/
def findPreamble (t : List Char) : Option (Nat × Nat) :=
  match findLit preBeginLit t with
  | none => none
  | some i =>
      match findLitLast preEndLit (t.drop (i + preBeginLit.length)) with
      | none => none
      | some j => some (i, i + preBeginLit.length + j + preEndLit.length)

/-- Split a list at its first closing brace: `some (before, after)`. -/
def findClose : List Char → Option (List Char × List Char)
  | [] => none
  | c :: rest =>
      if c = '\x7d' then some ([], rest)
      else (findClose rest).map (fun p => (c :: p.1, p.2))

/-- `re.sub(pat ++ r"\{(.*?)\}", r"\1", s, flags=re.DOTALL)`: scan left to
right; at the first position where the literal wrapper head matches and a
closing brace follows, replace wrapper head, argument and closing brace by the
argument (the non-greedy group stops at the first closing brace), then
continue after the consumed closing brace.  `fuel` bounds the recursion; it is
initialised with the length of the subject, which each step strictly consumes. -/
def stripSubAux (pat : List Char) : Nat → List Char → List Char
  | 0, s => s
  | _ + 1, [] => []
  | fuel + 1, c :: rest =>
      if pat.isPrefixOf (c :: rest) then
        match findClose ((c :: rest).drop pat.length) with
        | some p => p.1 ++ stripSubAux pat fuel p.2
        | none => c :: stripSubAux pat fuel rest
      else c :: stripSubAux pat fuel rest

/-- The wrapper-stripping step applied to the inner text of a span. -/
def stripSub (pat : List Char) (s : List Char) : List Char :=
  stripSubAux pat s.length s

/-- The reply of the interactive decision loop (`Y`/`N`/`Q`); invalid input
only re-prompts, so it does not appear. -/
inductive Decision
  | accept
  | reject
  | quit
deriving DecidableEq, Repr

/-- The two annotated-span kinds. -/
inductive SpanKind
  | add
  | del
deriving DecidableEq, Repr

/-- Outcome of the per-file scan loop of `Zaphod.revise`.

* `done out modified n` — the `while head < len(filetext)` loop exited
  normally; `out` is `revisedfiletext`, `n` the number of decisions consumed.
* `quitAt kind out modified n rest` — the user chose Quit at a span of `kind`;
  `out` is `revisedfiletext` at that moment and `rest` is `filetext[head:]`
  with `head` at the start of the span's end marker.
* `malformed kind out modified n` — a begin marker of `kind` had no end marker
  of the same kind after it: `re.search` returned `None` and the attribute
  access on it raised, aborting the scan.
* `outOfFuel` — fuel exhausted (never reached when fuel exceeds the length of
  the remaining text, since every iteration consumes at least one character). -/
inductive ScanResult
  | done (out : List Char) (modified : Bool) (n : Nat)
  | quitAt (kind : SpanKind) (out : List Char) (modified : Bool) (n : Nat) (rest : List Char)
  | malformed (kind : SpanKind) (out : List Char) (modified : Bool) (n : Nat)
  | outOfFuel
deriving DecidableEq, Repr

/-- The `revisedfiletext` accumulated by a scan outcome. -/
def ScanResult.outOf : ScanResult → List Char
  | .done out _ _ => out
  | .quitAt _ out _ _ _ => out
  | .malformed _ out _ _ => out
  | .outOfFuel => []

/-- The `self.modified` flag at the end of a scan outcome. -/
def ScanResult.modFlag : ScanResult → Bool
  | .done _ m _ => m
  | .quitAt _ _ m _ _ => m
  | .malformed _ _ m _ => m
  | .outOfFuel => false

/-- The `while head < len(filetext)` loop of `Zaphod.revise`, on the remaining
suffix `rest = filetext[head:]` (the loop maintains `head = tail` at the top of
every iteration).  `out` is `revisedfiletext`, `n` the index of the next
decision, `m` the `self.modified` flag.  The not-found sentinel for the three
searches is `len(filetext)` in the source; every found (relative) start is
smaller than the length of the remaining suffix, so comparing against
`rest.length` decides each comparison identically. -/
def scanLoop (f : Nat → Decision) : Nat → List Char → List Char → Nat → Bool → ScanResult
  | 0, _, _, _, _ => .outOfFuel
  | fuel + 1, rest, out, n, m =>
      if rest = [] then .done out m n
      else
        let L := rest.length
        let del_start := (findLit delBeginLit rest).getD L
        let add_start := (findLit addBeginLit rest).getD L
        let preamble := findPreamble rest
        let preamble_start := (preamble.map Prod.fst).getD L
        -- "If both are at EOL"
        if add_start = del_start then .done (out ++ rest) m n
        -- "Skip preamble here - remove it at the end if required"
        else if preamble_start < del_start ∧ preamble_start < add_start then
          let pEnd := (preamble.map Prod.snd).getD L
          scanLoop f fuel (rest.drop pEnd) (out ++ rest.take pEnd) n m
        else if del_start < add_start then
          -- "It's a deletion"
          let beginEnd := tokenMatchEnd delBeginLit rest del_start
          let afterBegin := rest.drop beginEnd
          match findLit delEndLit afterBegin with
          | none => .malformed .del (out ++ rest.take del_start) m n
          | some e =>
              let deletion := stripSub delMacroLit (afterBegin.take e)
              let out1 := out ++ rest.take del_start
              match f n with
              | .accept =>
                  scanLoop f fuel (afterBegin.drop (tokenMatchEnd delEndLit afterBegin e))
                    out1 (n + 1) true
              | .reject =>
                  scanLoop f fuel (afterBegin.drop (tokenMatchEnd delEndLit afterBegin e))
                    (out1 ++ deletion) (n + 1) m
              | .quit => .quitAt .del out1 m n (afterBegin.drop e)
        else
          -- "It's an addition"
          let beginEnd := tokenMatchEnd addBeginLit rest add_start
          let afterBegin := rest.drop beginEnd
          match findLit addEndLit afterBegin with
          | none => .malformed .add (out ++ rest.take add_start) m n
          | some e =>
              let addition := stripSub addMacroLit (afterBegin.take e)
              let out1 := out ++ rest.take add_start
              match f n with
              | .accept =>
                  scanLoop f fuel (afterBegin.drop (tokenMatchEnd addEndLit afterBegin e))
                    (out1 ++ addition) (n + 1) true
              | .reject =>
                  scanLoop f fuel (afterBegin.drop (tokenMatchEnd addEndLit afterBegin e))
                    out1 (n + 1) m
              | .quit => .quitAt .add out1 m n (afterBegin.drop e)

/-- One full per-file scan (`head` starting at `0`, `revisedfiletext` empty,
`self.modified = False`), with enough fuel for the whole document. -/
def scanDoc (f : Nat → Decision) (filetext : List Char) : ScanResult :=
  scanLoop f (filetext.length + 1) filetext [] 0 false

/-- What ends up on disk for one file processed by `Zaphod.revise`, and
whether a write happened.  On normal loop exit the output is written.  On
Quit, the partial text `revisedfiletext + filetext[head:]` is written only when
the session is dirty and the user answers yes to "Save partial file?"
(`savePartial`); otherwise the file is untouched.  On a malformed span the
raised exception aborts `revise` before any write. -/
def reviseFile (f : Nat → Decision) (savePartial : Bool) (filetext : List Char) :
    List Char × Bool :=
  match scanDoc f filetext with
  | .done out _ _ => (out, true)
  | .quitAt _ out m _ rest =>
      if m && savePartial then (out ++ rest, true) else (filetext, false)
  | .malformed _ _ _ _ => (filetext, false)
  | .outOfFuel => (filetext, false)

/-- `re.sub(self.rPreamble, "", filetext, flags=re.DOTALL)`.  The first match
already extends (greedily) to the last occurrence of the closing literal, so
no further match can start after it and at most one replacement happens. -/
def subPreamble (t : List Char) : List Char :=
  match findPreamble t with
  | none => t
  | some (i, j) => t.take i ++ t.drop j

/-- `Zaphod.get_modified_latex_files`, on the list of file contents: keep the
files that still contain a Del or Add begin marker after ignoring the preamble
block. -/
def get_modified_latex_files (files : List (List Char)) : List (List Char) :=
  files.filter fun filetorevise =>
    let filetext := subPreamble filetorevise
    let del_start := (findLit delBeginLit filetext).getD filetext.length
    let add_start := (findLit addBeginLit filetext).getD filetext.length
    !(add_start == del_start)

/-- `Zaphod.remove_preamble`: re-run the inspector on all files; strip the
preamble block from every file of the modified-files list only when no file
has annotations left. -/
def remove_preamble (allFiles : List (List Char)) (modifiedfiles : List (List Char)) :
    List (List Char) :=
  if (get_modified_latex_files allFiles).length = 0 then modifiedfiles.map subPreamble
  else modifiedfiles

/-- The four places where `Zaphod.revise` terminates the session. -/
inductive EndPath
  | queueExhausted
  | quitOnDel
  | quitOnAdd
  | filePickQuit
deriving DecidableEq, Repr

/-- The session-level calls `Zaphod.revise` makes on termination. -/
inductive SessionAction
  | removePreambleAct
  | generatePdf
  | saveChanges
deriving DecidableEq, Repr

/-- The exact call sequence of each termination path of `Zaphod.revise`:
queue exhaustion (lines 475-477), Quit at a Del span (lines 400-401), Quit at
an Add span (lines 457-459) and Quit at the file picker (lines 288-290). -/
def endOfSessionActions : EndPath → List SessionAction
  | .queueExhausted => [.removePreambleAct, .generatePdf, .saveChanges]
  | .quitOnDel => [.generatePdf, .saveChanges]
  | .quitOnAdd => [.removePreambleAct, .generatePdf, .saveChanges]
  | .filePickQuit => [.removePreambleAct, .generatePdf, .saveChanges]

/-- The begin marker literal of a span kind. -/
def beginLitOf : SpanKind → List Char
  | .add => addBeginLit
  | .del => delBeginLit

/-- The end marker literal of a span kind. -/
def endLitOf : SpanKind → List Char
  | .add => addEndLit
  | .del => delEndLit

/-- The inline wrapper literal of a span kind. -/
def macroLitOf : SpanKind → List Char
  | .add => addMacroLit
  | .del => delMacroLit

/-- `true` when none of the five sentinel literals occurs in `s`. -/
def tokenFree (s : List Char) : Bool :=
  (findLit delBeginLit s).isNone && (findLit addBeginLit s).isNone &&
  (findLit delEndLit s).isNone && (findLit addEndLit s).isNone &&
  (findLit preBeginLit s).isNone

/-- A well-formed annotated span together with the literal text preceding it:
`p ++ beginLit ++ wsB ++ inner ++ endLit ++ wsE`, where `wsB`/`wsE` are the
whitespace runs the `\s*` of the marker regexes consume. -/
structure Item where
  p : List Char
  kind : SpanKind
  wsB : List Char
  inner : List Char
  wsE : List Char
deriving DecidableEq, Repr

/-- The document text of one item. -/
def renderItem (it : Item) : List Char :=
  it.p ++ beginLitOf it.kind ++ it.wsB ++ it.inner ++ endLitOf it.kind ++ it.wsE

/-- A well-formed annotated document: the items in order, then trailing
literal text. -/
def renderItems : List Item → List Char → List Char
  | [], pLast => pLast
  | it :: rest, pLast => renderItem it ++ renderItems rest pLast

/-- Well-formedness of one item: the literal segment and the inner content
contain no sentinel literal and do not start with whitespace, and the
`wsB`/`wsE` runs are whitespace. -/
def itemWF (it : Item) : Bool :=
  tokenFree it.p && tokenFree it.inner && wsRun it.p == 0 && wsRun it.inner == 0 &&
  it.wsB.all isSpace && it.wsE.all isSpace

/-- Well-formedness of an annotated document. -/
def docWF (L : List Item) (pLast : List Char) : Bool :=
  L.all itemWF && tokenFree pLast && wsRun pLast == 0

/-- The Accept/Reject truth table of `Zaphod.revise`: the inner text is kept
for Accept on an Add span and for Reject on a Del span, dropped otherwise. -/
def keepDecision : SpanKind → Decision → Bool
  | .add, .accept => true
  | .add, _ => false
  | .del, .reject => true
  | .del, _ => false

/-- The resolved text of a list of items (without trailing text): each literal
segment followed by the stripped inner text when the decision keeps it. -/
def resolveInit (f : Nat → Decision) : Nat → List Item → List Char
  | _, [] => []
  | n, it :: rest =>
      it.p ++ (if keepDecision it.kind (f n) then stripSub (macroLitOf it.kind) it.inner else [])
        ++ resolveInit f (n + 1) rest

/-- The fully resolved text of a well-formed annotated document. -/
def resolveItems (f : Nat → Decision) (n : Nat) (L : List Item) (pLast : List Char) :
    List Char :=
  resolveInit f n L ++ pLast

/-- Whether any of the decisions consumed for `L` (starting at index `n`) is
an Accept — exactly the decisions that set `self.modified`. -/
def hasAccept (f : Nat → Decision) : Nat → List Item → Bool
  | _, [] => false
  | n, _ :: rest => (f n == Decision.accept) || hasAccept f (n + 1) rest

/-! ### Concrete documents used to evaluate the model -/

/-- The Add-span example document of the specification. -/
def exAddDoc : List Char := "A \\DIFaddbegin \\DIFadd\x7bnew text\x7d\\DIFaddend B".toList

/-- The Del-span example document of the specification. -/
def exDelDoc : List Char := "X \\DIFdelbegin\\DIFdel\x7bold\x7d\\DIFdelend Y".toList

/-- A two-span document: an Add span, then a Del span. -/
def exTwoSpanDoc : List Char :=
  ("A \\DIFaddbegin \\DIFadd\x7bx\x7d\\DIFaddend B " ++
    "\\DIFdelbegin\\DIFdel\x7bold\x7d\\DIFdelend C").toList

/-- Accept the first span, quit at the second. -/
def acceptThenQuit : Nat → Decision := fun n => if n = 0 then .accept else .quit

/-- A document consisting of a single Del span with no surrounding text. -/
def exOneDelDoc : List Char := "\\DIFdelbegin\\DIFdel\x7bo\x7d\\DIFdelend".toList

/-- An Add begin marker with no Add end marker anywhere after it. -/
def exMalformedDoc : List Char := "\\DIFaddbegin \\DIFadd\x7bx\x7d no end".toList

/-- A well-formed document whose resolution recreates a sentinel token: the
literal text before the span ends with a proper prefix of the begin marker and
the kept inner text supplies the missing final character. -/
def exBoundaryDoc : List Char :=
  "x \\DIFaddbegi\\DIFaddbegin \\DIFadd\x7bn\x7d\\DIFaddend y".toList

/-! ### Toolkit: occurrences of a literal in a list -/

theorem prefixOf_length_le {pat s : List Char} (h : pat.isPrefixOf s = true) :
    pat.length ≤ s.length := by
  induction pat generalizing s with
  | nil => simp
  | cons a tk ih =>
    cases s with
    | nil => simp [List.isPrefixOf] at h
    | cons b rest =>
      simp only [List.isPrefixOf, Bool.and_eq_true] at h
      simpa using ih h.2

theorem prefixOf_get? {pat s : List Char} (h : pat.isPrefixOf s = true)
    {i : Nat} (hi : i < pat.length) : s.get? i = pat.get? i := by
  induction pat generalizing s i with
  | nil => simp at hi
  | cons a tk ih =>
    cases s with
    | nil => simp [List.isPrefixOf] at h
    | cons b rest =>
      simp only [List.isPrefixOf, Bool.and_eq_true, beq_iff_eq] at h
      cases i with
      | zero => simp [h.1]
      | succ i => simpa using ih h.2 (by simpa using hi)

theorem prefixOf_append_left {pat u w : List Char} (h : pat.isPrefixOf (u ++ w) = true)
    (hl : pat.length ≤ u.length) : pat.isPrefixOf u = true := by
  induction pat generalizing u w with
  | nil => simp [List.isPrefixOf]
  | cons a tk ih =>
    cases u with
    | nil => simp at hl
    | cons b ur =>
      simp only [List.cons_append, List.isPrefixOf, Bool.and_eq_true] at h ⊢
      exact ⟨h.1, ih h.2 (by simpa using hl)⟩

theorem prefixOf_mono {pat u : List Char} (w : List Char) (h : pat.isPrefixOf u = true) :
    pat.isPrefixOf (u ++ w) = true := by
  induction pat generalizing u with
  | nil => simp [List.isPrefixOf]
  | cons a tk ih =>
    cases u with
    | nil => simp [List.isPrefixOf] at h
    | cons b ur =>
      simp only [List.cons_append, List.isPrefixOf, Bool.and_eq_true] at h ⊢
      exact ⟨h.1, ih h.2⟩

theorem self_prefixOf_append (u w : List Char) : u.isPrefixOf (u ++ w) = true := by
  induction u with
  | nil => simp [List.isPrefixOf]
  | cons a ur ih => simp [List.isPrefixOf, ih]

theorem prefixOf_of_prefixOf_le {x y s : List Char} (h1 : x.isPrefixOf s = true)
    (h2 : y.isPrefixOf s = true) (hl : x.length ≤ y.length) : x.isPrefixOf y = true := by
  induction x generalizing y s with
  | nil => simp [List.isPrefixOf]
  | cons a xs ih =>
    cases y with
    | nil => simp at hl
    | cons b ys =>
      cases s with
      | nil => simp [List.isPrefixOf] at h1
      | cons c ss =>
        simp only [List.isPrefixOf, Bool.and_eq_true, beq_iff_eq] at h1 h2 ⊢
        exact ⟨by rw [h1.1, h2.1], ih h1.2 h2.2 (by simpa using hl)⟩

theorem findLit_nil {pat : List Char} (h : pat ≠ []) : findLit pat [] = none := by
  simp [findLit, h]

theorem findLit_self {pat s : List Char} (h : pat.isPrefixOf s = true) :
    findLit pat s = some 0 := by
  cases s with
  | nil =>
    have : pat = [] := by
      cases pat with
      | nil => rfl
      | cons a tk => simp [List.isPrefixOf] at h
    simp [findLit, this]
  | cons c rest => simp [findLit, h]

theorem findLit_eq_none_iff {pat : List Char} (hne : pat ≠ []) (s : List Char) :
    findLit pat s = none ↔ ∀ j, ¬ pat.isPrefixOf (s.drop j) = true := by
  induction s with
  | nil =>
    simp only [findLit_nil hne, List.drop_nil, true_iff]
    intro j h
    cases pat with
    | nil => exact hne rfl
    | cons a tk => simp [List.isPrefixOf] at h
  | cons c rest ih =>
    simp only [findLit]
    by_cases hpre : pat.isPrefixOf (c :: rest) = true
    · rw [if_pos hpre]
      constructor
      · intro h; cases h
      · intro h; exact absurd hpre (h 0)
    · rw [if_neg hpre]
      rw [Option.map_eq_none', ih]
      constructor
      · intro h j
        cases j with
        | zero => simpa using hpre
        | succ j => simpa using h j
      · intro h j
        have := h (j + 1)
        simpa using this

theorem findLit_some_prefixOf {pat s : List Char} {i : Nat} (h : findLit pat s = some i) :
    pat.isPrefixOf (s.drop i) = true := by
  induction s generalizing i with
  | nil =>
    simp only [findLit] at h
    by_cases hp : pat = []
    · simp only [hp, if_pos rfl] at h
      cases h
      simp [hp, List.isPrefixOf]
    · simp [hp] at h
  | cons c rest ih =>
    simp only [findLit] at h
    by_cases hpre : pat.isPrefixOf (c :: rest) = true
    · rw [if_pos hpre] at h
      cases h
      simpa using hpre
    · rw [if_neg hpre, Option.map_eq_some'] at h
      obtain ⟨j, hj, rfl⟩ := h
      simpa using ih hj

theorem findLit_bound {pat s : List Char} {i : Nat} (hne : pat ≠ [])
    (h : findLit pat s = some i) : i < s.length := by
  have hpre := findLit_some_prefixOf h
  by_contra hlt
  push_neg at hlt
  rw [List.drop_eq_nil_of_le hlt] at hpre
  cases pat with
  | nil => exact hne rfl
  | cons a tk => simp [List.isPrefixOf] at hpre

theorem findLit_append_shift {pat : List Char} (u w : List Char)
    (h : ∀ j, j < u.length → ¬ pat.isPrefixOf ((u ++ w).drop j) = true) :
    findLit pat (u ++ w) = (findLit pat w).map (· + u.length) := by
  induction u with
  | nil =>
    simp only [List.nil_append, List.length_nil]
    cases findLit pat w <;> simp
  | cons c ur ih =>
    have h0 : ¬ pat.isPrefixOf (c :: (ur ++ w)) = true := by
      have := h 0 (by simp)
      simpa using this
    have step : findLit pat ((c :: ur) ++ w) = (findLit pat (ur ++ w)).map (· + 1) := by
      rw [List.cons_append]
      simp only [findLit]
      rw [if_neg h0]
    rw [step, ih (fun j hj => by
      have := h (j + 1) (by simpa using Nat.succ_lt_succ hj)
      simpa using this)]
    cases findLit pat w <;> simp [Nat.add_assoc, Nat.add_comm 1]

theorem head?_eq_get? (l : List Char) : l.head? = l.get? 0 := by
  cases l <;> rfl

/-- No occurrence of `pat` can start inside `u` when `pat` does not occur in
`u` alone and no character of `pat` except possibly the first equals the first
character of `w` (so no occurrence can straddle the boundary). -/
theorem no_straddle_free {pat : List Char} (u w : List Char) (hne : pat ≠ [])
    (hu : findLit pat u = none)
    (hchar : ∀ c, w.head? = some c → ((pat.drop 1).all fun d => !(d == c)) = true) :
    ∀ j, j < u.length → ¬ pat.isPrefixOf ((u ++ w).drop j) = true := by
  intro j hj hpre
  by_cases hlen : j + pat.length ≤ u.length
  · have hsplit : (u ++ w).drop j = u.drop j ++ w :=
      List.drop_append_of_le_length (Nat.le_of_lt hj)
    rw [hsplit] at hpre
    have : pat.isPrefixOf (u.drop j) = true :=
      prefixOf_append_left hpre (by simp; omega)
    exact ((findLit_eq_none_iff hne u).mp hu j) this
  · push_neg at hlen
    have hwne : w ≠ [] := by
      intro hw
      subst hw
      rw [List.append_nil] at hpre
      have := prefixOf_length_le hpre
      simp at this
      omega
    obtain ⟨c, hc⟩ : ∃ c, w.head? = some c := by
      cases w with
      | nil => exact absurd rfl hwne
      | cons a _ => exact ⟨a, rfl⟩
    set pos := u.length - j with hpos
    have hpos0 : 0 < pos := by omega
    have hposlt : pos < pat.length := by omega
    have h1 : ((u ++ w).drop j).get? pos = pat.get? pos := prefixOf_get? hpre hposlt
    have h2 : ((u ++ w).drop j).get? pos = (u ++ w).get? (j + pos) := List.get?_drop _ _ _
    have h3 : (u ++ w).get? (j + pos) = w.get? 0 := by
      have : j + pos = u.length := by omega
      rw [this]
      rw [List.get?_append_right (Nat.le_refl _)]
      simp
    have h4 : pat.get? pos = some c := by
      rw [← h1, h2, h3, ← head?_eq_get?, hc]
    have h5 : (pat.drop 1).get? (pos - 1) = some c := by
      rw [List.get?_drop]
      have : 1 + (pos - 1) = pos := by omega
      rw [this, h4]
    have hmem : c ∈ pat.drop 1 := List.get?_mem h5
    have := List.all_eq_true.mp (hchar c hc) c hmem
    simp at this

/-- No occurrence of `pat` can start inside a block `u` for which, at every
offset, neither is `pat` a prefix of the rest of `u` nor the rest of `u` a
prefix of `pat` (decidable for concrete `pat` and `u`). -/
theorem no_straddle_block {pat : List Char} (u w : List Char)
    (h : ∀ j, j < u.length →
      ¬ pat.isPrefixOf (u.drop j) = true ∧ ¬ (u.drop j).isPrefixOf pat = true) :
    ∀ j, j < u.length → ¬ pat.isPrefixOf ((u ++ w).drop j) = true := by
  intro j hj hpre
  have hsplit : (u ++ w).drop j = u.drop j ++ w :=
    List.drop_append_of_le_length (Nat.le_of_lt hj)
  rw [hsplit] at hpre
  by_cases hlen : pat.length ≤ (u.drop j).length
  · exact (h j hj).1 (prefixOf_append_left hpre hlen)
  · push_neg at hlen
    have hdp : (u.drop j).isPrefixOf (u.drop j ++ w) = true := self_prefixOf_append _ _
    exact (h j hj).2 (prefixOf_of_prefixOf_le hdp hpre (Nat.le_of_lt hlen))

/-- No occurrence of a pattern starting with a non-whitespace character can
start inside an all-whitespace block. -/
theorem no_straddle_ws {pat : List Char} (u w : List Char) (hne : pat ≠ [])
    (hh : ∀ c, pat.head? = some c → isSpace c = false)
    (hu : u.all isSpace = true) :
    ∀ j, j < u.length → ¬ pat.isPrefixOf ((u ++ w).drop j) = true := by
  intro j hj hpre
  have hplen : 0 < pat.length := by
    cases pat with
    | nil => exact absurd rfl hne
    | cons a tk => simp
  have h1 : ((u ++ w).drop j).get? 0 = pat.get? 0 := prefixOf_get? hpre hplen
  have h2 : ((u ++ w).drop j).get? 0 = (u ++ w).get? j := by
    rw [List.get?_drop]
    simp
  have h3 : (u ++ w).get? j = u.get? j := List.get?_append hj
  obtain ⟨c, hc⟩ : ∃ c, u.get? j = some c := by
    cases hg : u.get? j with
    | none => rw [List.get?_eq_none] at hg; omega
    | some a => exact ⟨a, rfl⟩
  have hcmem : c ∈ u := List.get?_mem hc
  have hcs : isSpace c = true := List.all_eq_true.mp hu c hcmem
  have hhead : pat.head? = some c := by
    rw [head?_eq_get?, ← h1, h2, h3, hc]
  rw [hh c hhead] at hcs
  cases hcs

/-! ### Facts about the concrete sentinel literals -/

theorem head?_append_of_ne_nil {u : List Char} (w : List Char) (h : u ≠ []) :
    (u ++ w).head? = u.head? := by
  cases u with
  | nil => exact absurd rfl h
  | cons a ur => rfl

/-- The discharge condition of `no_straddle_block`, packaged decidably. -/
def blockCond (pat u : List Char) : Prop :=
  ∀ j, j < u.length → ¬ pat.isPrefixOf (u.drop j) = true ∧ ¬ (u.drop j).isPrefixOf pat = true

instance (pat u : List Char) : Decidable (blockCond pat u) := by
  unfold blockCond
  infer_instance

theorem tokenFree_spec {s : List Char} (h : tokenFree s = true) :
    findLit delBeginLit s = none ∧ findLit addBeginLit s = none ∧
    findLit delEndLit s = none ∧ findLit addEndLit s = none ∧
    findLit preBeginLit s = none := by
  simp only [tokenFree, Bool.and_eq_true, Option.isNone_iff_eq_none] at h
  exact ⟨h.1.1.1.1, h.1.1.1.2, h.1.1.2, h.1.2, h.2⟩

theorem itemWF_spec {it : Item} (h : itemWF it = true) :
    tokenFree it.p = true ∧ tokenFree it.inner = true ∧ wsRun it.p = 0 ∧
    wsRun it.inner = 0 ∧ it.wsB.all isSpace = true ∧ it.wsE.all isSpace = true := by
  simp only [itemWF, Bool.and_eq_true, beq_iff_eq] at h
  exact ⟨h.1.1.1.1.1, h.1.1.1.1.2, h.1.1.1.2, h.1.1.2, h.1.2, h.2⟩

theorem beginLitOf_ne_nil (k : SpanKind) : beginLitOf k ≠ [] := by
  cases k <;> simp [beginLitOf, addBeginLit, delBeginLit]

theorem endLitOf_ne_nil (k : SpanKind) : endLitOf k ≠ [] := by
  cases k <;> simp [endLitOf, addEndLit, delEndLit]

theorem beginLitOf_head (k : SpanKind) : (beginLitOf k).head? = some '\\' := by
  cases k <;> decide

theorem endLitOf_head (k : SpanKind) : (endLitOf k).head? = some '\\' := by
  cases k <;> decide

theorem beginLitOf_drop1_bs (k : SpanKind) :
    ((beginLitOf k).drop 1).all (fun d => !(d == '\\')) = true := by
  cases k <;> decide

theorem endLitOf_drop1_bs (k : SpanKind) :
    ((endLitOf k).drop 1).all (fun d => !(d == '\\')) = true := by
  cases k <;> decide

theorem preBeginLit_drop1_bs :
    (preBeginLit.drop 1).all (fun d => !(d == '\\')) = true := by decide

theorem beginLitOf_head_not_space (k : SpanKind) :
    ∀ c, (beginLitOf k).head? = some c → isSpace c = false := by
  cases k <;> (intro c hc; cases hc; decide)

theorem endLitOf_head_not_space (k : SpanKind) :
    ∀ c, (endLitOf k).head? = some c → isSpace c = false := by
  cases k <;> (intro c hc; cases hc; decide)

theorem preBeginLit_head_not_space :
    ∀ c, preBeginLit.head? = some c → isSpace c = false := by
  intro c hc; cases hc; decide

theorem blockCond_begin_end (k k' : SpanKind) :
    blockCond (beginLitOf k) (endLitOf k') := by
  cases k <;> cases k' <;> decide

theorem blockCond_pre_begin (k : SpanKind) : blockCond preBeginLit (beginLitOf k) := by
  cases k <;> decide

theorem blockCond_pre_end (k : SpanKind) : blockCond preBeginLit (endLitOf k) := by
  cases k <;> decide

/-- The other span kind. -/
def SpanKind.other : SpanKind → SpanKind
  | .add => .del
  | .del => .add

theorem blockCond_other_begin' (k : SpanKind) :
    blockCond (beginLitOf k.other) (beginLitOf k) := by
  cases k <;> decide

theorem preBeginLit_ne_nil : preBeginLit ≠ [] := by decide

theorem blockCond_spec {pat u : List Char} (h : blockCond pat u) :
    ∀ j, j < u.length → ¬ pat.isPrefixOf (u.drop j) = true ∧ ¬ (u.drop j).isPrefixOf pat = true :=
  h

theorem tokenFree_beginOf {s : List Char} (k : SpanKind) (h : tokenFree s = true) :
    findLit (beginLitOf k) s = none := by
  obtain ⟨h1, h2, _, _, _⟩ := tokenFree_spec h
  cases k
  · exact h2
  · exact h1

theorem tokenFree_endOf {s : List Char} (k : SpanKind) (h : tokenFree s = true) :
    findLit (endLitOf k) s = none := by
  obtain ⟨_, _, h3, h4, _⟩ := tokenFree_spec h
  cases k
  · exact h4
  · exact h3

theorem tokenFree_pre {s : List Char} (h : tokenFree s = true) :
    findLit preBeginLit s = none :=
  (tokenFree_spec h).2.2.2.2

theorem map_add_add (o : Option Nat) (a b : Nat) :
    (o.map (· + a)).map (· + b) = o.map (· + (a + b)) := by
  cases o <;> simp [Nat.add_assoc]

theorem hchar_of_begin {tok : List Char} (k : SpanKind) (X : List Char)
    (hbs : (tok.drop 1).all (fun d => !(d == '\\')) = true) :
    ∀ c, (beginLitOf k ++ X).head? = some c →
      ((tok.drop 1).all fun d => !(d == c)) = true := by
  intro c hc
  rw [head?_append_of_ne_nil _ (beginLitOf_ne_nil _), beginLitOf_head] at hc
  cases hc
  exact hbs

theorem hchar_of_end {tok : List Char} (k : SpanKind) (X : List Char)
    (hbs : (tok.drop 1).all (fun d => !(d == '\\')) = true) :
    ∀ c, (endLitOf k ++ X).head? = some c →
      ((tok.drop 1).all fun d => !(d == c)) = true := by
  intro c hc
  rw [head?_append_of_ne_nil _ (endLitOf_ne_nil _), endLitOf_head] at hc
  cases hc
  exact hbs

/-! ### Searching a well-formed rendered document -/

theorem renderItem_assoc (it : Item) (R : List Char) :
    renderItem it ++ R =
      it.p ++ (beginLitOf it.kind ++ (it.wsB ++ (it.inner ++
        (endLitOf it.kind ++ (it.wsE ++ R))))) := by
  simp [renderItem, List.append_assoc]

/-- A pattern that occurs in none of the blocks of an item (and cannot
straddle block boundaries) is first found past the whole item. -/
theorem findLit_render_shift {tok : List Char} (it : Item) (R : List Char)
    (hne : tok ≠ [])
    (hp : findLit tok it.p = none) (hinner : findLit tok it.inner = none)
    (hbB : blockCond tok (beginLitOf it.kind)) (hbE : blockCond tok (endLitOf it.kind))
    (hbs : (tok.drop 1).all (fun d => !(d == '\\')) = true)
    (hh : ∀ c, tok.head? = some c → isSpace c = false)
    (hwsB : it.wsB.all isSpace = true) (hwsE : it.wsE.all isSpace = true) :
    findLit tok (renderItem it ++ R) = (findLit tok R).map (· + (renderItem it).length) := by
  rw [renderItem_assoc]
  rw [findLit_append_shift it.p _ (no_straddle_free _ _ hne hp (hchar_of_begin _ _ hbs))]
  rw [findLit_append_shift _ _ (no_straddle_block _ _ (blockCond_spec hbB))]
  rw [findLit_append_shift _ _ (no_straddle_ws _ _ hne hh hwsB)]
  rw [findLit_append_shift _ _ (no_straddle_free _ _ hne hinner (hchar_of_end _ _ hbs))]
  rw [findLit_append_shift _ _ (no_straddle_block _ _ (blockCond_spec hbE))]
  rw [findLit_append_shift _ _ (no_straddle_ws _ _ hne hh hwsE)]
  rw [map_add_add, map_add_add, map_add_add, map_add_add, map_add_add]
  cases findLit tok R with
  | none => simp
  | some r =>
      simp only [Option.map_some']
      congr 1
      simp [renderItem, List.length_append]
      omega

/-- The begin marker of a well-formed item is the first occurrence of its own
begin literal in the rendered document. -/
theorem findLit_render_self (it : Item) (R : List Char) (hWF : itemWF it = true) :
    findLit (beginLitOf it.kind) (renderItem it ++ R) = some it.p.length := by
  obtain ⟨hpf, _, _, _, _, _⟩ := itemWF_spec hWF
  have hne := beginLitOf_ne_nil it.kind
  rw [renderItem_assoc]
  rw [findLit_append_shift it.p _ (no_straddle_free _ _ hne (tokenFree_beginOf _ hpf)
    (hchar_of_begin _ _ (beginLitOf_drop1_bs _)))]
  rw [findLit_self (self_prefixOf_append _ _)]
  simp

/-- The end marker of a well-formed item is the first occurrence of its end
literal after the begin marker and leading whitespace. -/
theorem findLit_render_end (it : Item) (R : List Char) (hWF : itemWF it = true) :
    findLit (endLitOf it.kind) (it.inner ++ (endLitOf it.kind ++ (it.wsE ++ R))) =
      some it.inner.length := by
  obtain ⟨_, hif, _, _, _, _⟩ := itemWF_spec hWF
  have hne := endLitOf_ne_nil it.kind
  rw [findLit_append_shift it.inner _ (no_straddle_free _ _ hne (tokenFree_endOf _ hif)
    (hchar_of_end _ _ (endLitOf_drop1_bs _)))]
  rw [findLit_self (self_prefixOf_append _ _)]
  simp

theorem docWF_cons {it : Item} {L : List Item} {pLast : List Char}
    (h : docWF (it :: L) pLast = true) : itemWF it = true ∧ docWF L pLast = true := by
  simp only [docWF, List.all_cons, Bool.and_eq_true] at h ⊢
  exact ⟨h.1.1.1, ⟨h.1.1.2, h.1.2⟩, h.2⟩

theorem docWF_nil {pLast : List Char} (h : docWF [] pLast = true) :
    tokenFree pLast = true ∧ wsRun pLast = 0 := by
  simp only [docWF, List.all_nil, Bool.and_eq_true, beq_iff_eq, true_and] at h
  exact h

/-- The preamble pattern never occurs in a well-formed rendered document. -/
theorem findLit_pre_render (L : List Item) (pLast : List Char)
    (hWF : docWF L pLast = true) : findLit preBeginLit (renderItems L pLast) = none := by
  induction L with
  | nil => exact tokenFree_pre (docWF_nil hWF).1
  | cons it rest ih =>
      obtain ⟨hit, hrest⟩ := docWF_cons hWF
      obtain ⟨hpf, hif, _, _, hwsB, hwsE⟩ := itemWF_spec hit
      rw [renderItems]
      rw [findLit_render_shift it _ preBeginLit_ne_nil (tokenFree_pre hpf)
        (tokenFree_pre hif) (blockCond_pre_begin _) (blockCond_pre_end _)
        preBeginLit_drop1_bs preBeginLit_head_not_space hwsB hwsE]
      rw [ih hrest]
      rfl

theorem findPreamble_none {t : List Char} (h : findLit preBeginLit t = none) :
    findPreamble t = none := by
  unfold findPreamble
  rw [h]

/-- The other kind's begin marker is first found past the current item. -/
theorem findLit_render_other (it : Item) (R : List Char) (hWF : itemWF it = true) :
    findLit (beginLitOf it.kind.other) (renderItem it ++ R) =
      (findLit (beginLitOf it.kind.other) R).map (· + (renderItem it).length) := by
  obtain ⟨hpf, hif, _, _, hwsB, hwsE⟩ := itemWF_spec hWF
  exact findLit_render_shift it R (beginLitOf_ne_nil _) (tokenFree_beginOf _ hpf)
    (tokenFree_beginOf _ hif) (blockCond_other_begin' _) (blockCond_begin_end _ _)
    (beginLitOf_drop1_bs _) (beginLitOf_head_not_space _) hwsB hwsE

/-! ### Whitespace-run and slicing lemmas for rendered documents -/

theorem wsRun_all_space_append {u : List Char} (v : List Char) (h : u.all isSpace = true) :
    wsRun (u ++ v) = u.length + wsRun v := by
  induction u with
  | nil => simp [wsRun]
  | cons c r ih =>
      simp only [List.all_cons, Bool.and_eq_true] at h
      simp only [List.cons_append, wsRun, h.1, if_true, List.append_eq, ih h.2,
        List.length_cons]
      omega

theorem wsRun_append_zero {x : List Char} (y : List Char) (hx : wsRun x = 0) (hne : x ≠ []) :
    wsRun (x ++ y) = 0 := by
  cases x with
  | nil => exact absurd rfl hne
  | cons c r =>
      simp only [wsRun] at hx
      by_cases hc : isSpace c = true
      · rw [hc] at hx; simp at hx
      · simp only [List.cons_append, wsRun]
        rw [Bool.not_eq_true] at hc
        simp [hc]

theorem wsRun_head_bs {x : List Char} (hx : x.head? = some '\\') : wsRun x = 0 := by
  cases x with
  | nil => cases hx
  | cons c r =>
      cases hx
      simp [wsRun, isSpace]

theorem wsRun_inner_tail {inner X : List Char} (hwi : wsRun inner = 0) (hX : wsRun X = 0) :
    wsRun (inner ++ X) = 0 := by
  cases inner with
  | nil => simpa using hX
  | cons c r => exact wsRun_append_zero _ hwi (by simp)

/-- A well-formed rendered document never starts with whitespace. -/
theorem renderItems_wsRun (L : List Item) (pLast : List Char) (hWF : docWF L pLast = true) :
    wsRun (renderItems L pLast) = 0 := by
  cases L with
  | nil => exact (docWF_nil hWF).2
  | cons it rest =>
      obtain ⟨hit, _⟩ := docWF_cons hWF
      obtain ⟨_, _, hwp, _, _, _⟩ := itemWF_spec hit
      rw [renderItems, renderItem_assoc]
      cases hp : it.p with
      | nil =>
          simp only [hp, List.nil_append]
          exact wsRun_head_bs (by
            rw [head?_append_of_ne_nil _ (beginLitOf_ne_nil _)]
            exact beginLitOf_head _)
      | cons c r =>
          rw [hp] at hwp
          exact wsRun_append_zero _ hwp (by simp [hp])

theorem take_len_append (u v : List Char) : (u ++ v).take u.length = u :=
  List.take_left u v

theorem drop_len_append (u v : List Char) : (u ++ v).drop u.length = v :=
  List.drop_left u v

theorem render_take_p (it : Item) (R : List Char) :
    (renderItem it ++ R).take it.p.length = it.p := by
  rw [renderItem_assoc]
  exact take_len_append _ _

theorem render_drop_beginLit (it : Item) (R : List Char) :
    (renderItem it ++ R).drop (it.p.length + (beginLitOf it.kind).length) =
      it.wsB ++ (it.inner ++ (endLitOf it.kind ++ (it.wsE ++ R))) := by
  rw [renderItem_assoc]
  have h1 : it.p ++ (beginLitOf it.kind ++ (it.wsB ++ (it.inner ++
      (endLitOf it.kind ++ (it.wsE ++ R))))) =
      (it.p ++ beginLitOf it.kind) ++ (it.wsB ++ (it.inner ++
      (endLitOf it.kind ++ (it.wsE ++ R)))) := by
    simp [List.append_assoc]
  rw [h1]
  have h2 : it.p.length + (beginLitOf it.kind).length = (it.p ++ beginLitOf it.kind).length := by
    simp
  rw [h2]
  exact drop_len_append _ _

theorem render_drop_begin (it : Item) (R : List Char) :
    (renderItem it ++ R).drop (it.p.length + (beginLitOf it.kind).length + it.wsB.length) =
      it.inner ++ (endLitOf it.kind ++ (it.wsE ++ R)) := by
  rw [renderItem_assoc]
  have h1 : it.p ++ (beginLitOf it.kind ++ (it.wsB ++ (it.inner ++
      (endLitOf it.kind ++ (it.wsE ++ R))))) =
      (it.p ++ beginLitOf it.kind ++ it.wsB) ++ (it.inner ++
      (endLitOf it.kind ++ (it.wsE ++ R))) := by
    simp [List.append_assoc]
  rw [h1]
  have h2 : it.p.length + (beginLitOf it.kind).length + it.wsB.length =
      (it.p ++ beginLitOf it.kind ++ it.wsB).length := by
    simp
    omega
  rw [h2]
  exact drop_len_append _ _

theorem ab_drop_end (inner e wsE R : List Char) :
    (inner ++ (e ++ (wsE ++ R))).drop (inner.length + e.length) = wsE ++ R := by
  have h1 : inner ++ (e ++ (wsE ++ R)) = (inner ++ e) ++ (wsE ++ R) := by
    simp [List.append_assoc]
  rw [h1]
  have h2 : inner.length + e.length = (inner ++ e).length := by simp
  rw [h2]
  exact drop_len_append _ _

theorem ab_drop_full (inner e wsE R : List Char) :
    (inner ++ (e ++ (wsE ++ R))).drop (inner.length + e.length + wsE.length) = R := by
  have h1 : inner ++ (e ++ (wsE ++ R)) = (inner ++ e ++ wsE) ++ R := by
    simp [List.append_assoc]
  rw [h1]
  have h2 : inner.length + e.length + wsE.length = (inner ++ e ++ wsE).length := by
    simp
    omega
  rw [h2]
  exact drop_len_append _ _

theorem beginLitOf_len_pos (k : SpanKind) : 0 < (beginLitOf k).length := by
  cases k <;> decide

theorem endLitOf_len_pos (k : SpanKind) : 0 < (endLitOf k).length := by
  cases k <;> decide

/-! ### One iteration of the scan loop on a well-formed document -/

/-- One iteration of the scan loop at the head item of a well-formed rendered
document: the text before the span is copied, the span is resolved per the
Accept/Reject truth table (Accept additionally setting the dirty flag), and on
Quit the loop returns with the cursor at the start of the span's end marker. -/
theorem scanLoop_step (f : Nat → Decision) (fuel : Nat) (it : Item) (L : List Item)
    (pLast out : List Char) (n : Nat) (m : Bool)
    (hWF : docWF (it :: L) pLast = true) :
    scanLoop f (fuel + 1) (renderItems (it :: L) pLast) out n m =
      match f n with
      | .quit => .quitAt it.kind (out ++ it.p) m n
          (endLitOf it.kind ++ (it.wsE ++ renderItems L pLast))
      | .accept => scanLoop f fuel (renderItems L pLast)
          (out ++ it.p ++ (if keepDecision it.kind .accept then
            stripSub (macroLitOf it.kind) it.inner else [])) (n + 1) true
      | .reject => scanLoop f fuel (renderItems L pLast)
          (out ++ it.p ++ (if keepDecision it.kind .reject then
            stripSub (macroLitOf it.kind) it.inner else [])) (n + 1) m := by
  obtain ⟨hit, hrest⟩ := docWF_cons hWF
  obtain ⟨hpf, hif, hwp, hwi, hwsB, hwsE⟩ := itemWF_spec hit
  set R := renderItems L pLast with hRdef
  have hRws : wsRun R = 0 := renderItems_wsRun L pLast hrest
  have hne0 : renderItem it ++ R ≠ [] := by
    have hpos := beginLitOf_len_pos it.kind
    intro h
    have hlen := congrArg List.length h
    simp only [renderItem, List.append_assoc, List.length_append, List.length_nil] at hlen
    omega
  have hSelf : findLit (beginLitOf it.kind) (renderItem it ++ R) = some it.p.length :=
    findLit_render_self it R hit
  have hOther : findLit (beginLitOf it.kind.other) (renderItem it ++ R) =
      (findLit (beginLitOf it.kind.other) R).map (· + (renderItem it).length) :=
    findLit_render_other it R hit
  have hPre : findPreamble (renderItem it ++ R) = none := by
    apply findPreamble_none
    have := findLit_pre_render (it :: L) pLast hWF
    rw [renderItems] at this
    exact this
  have hplt : it.p.length < (renderItem it).length := by
    have := beginLitOf_len_pos it.kind
    simp [renderItem]
    omega
  have hrilen : (renderItem it).length ≤ (renderItem it ++ R).length := by
    simp
  -- the whitespace run after the begin marker
  have hwB : wsRun ((renderItem it ++ R).drop (it.p.length + (beginLitOf it.kind).length)) =
      it.wsB.length := by
    rw [render_drop_beginLit]
    rw [wsRun_all_space_append _ hwsB]
    have : wsRun (it.inner ++ (endLitOf it.kind ++ (it.wsE ++ R))) = 0 := by
      apply wsRun_inner_tail hwi
      apply wsRun_head_bs
      rw [head?_append_of_ne_nil _ (endLitOf_ne_nil _)]
      exact endLitOf_head _
    rw [this]
    omega
  have hAB : (renderItem it ++ R).drop
      (it.p.length + (beginLitOf it.kind).length + it.wsB.length) =
      it.inner ++ (endLitOf it.kind ++ (it.wsE ++ R)) := render_drop_begin it R
  have hEnd : findLit (endLitOf it.kind)
      (it.inner ++ (endLitOf it.kind ++ (it.wsE ++ R))) = some it.inner.length :=
    findLit_render_end it R hit
  have hTakeInner : (it.inner ++ (endLitOf it.kind ++ (it.wsE ++ R))).take it.inner.length =
      it.inner := take_len_append _ _
  have hDropInner : (it.inner ++ (endLitOf it.kind ++ (it.wsE ++ R))).drop it.inner.length =
      endLitOf it.kind ++ (it.wsE ++ R) := drop_len_append _ _
  have hwE : wsRun ((it.inner ++ (endLitOf it.kind ++ (it.wsE ++ R))).drop
      (it.inner.length + (endLitOf it.kind).length)) = it.wsE.length := by
    rw [ab_drop_end]
    rw [wsRun_all_space_append _ hwsE, hRws]
    omega
  have hDropFull : (it.inner ++ (endLitOf it.kind ++ (it.wsE ++ R))).drop
      (it.inner.length + (endLitOf it.kind).length + it.wsE.length) = R :=
    ab_drop_full _ _ _ _
  have hTakeP : (renderItem it ++ R).take it.p.length = it.p := render_take_p it R
  -- evaluate the iteration, by span kind
  cases hk : it.kind with
  | del =>
      rw [hk] at hSelf hOther hwB hAB hEnd hTakeInner hDropInner hwE hDropFull
      simp only [SpanKind.other, beginLitOf, endLitOf] at hSelf hOther hwB hAB
      simp only [SpanKind.other, beginLitOf, endLitOf] at hEnd hTakeInner hDropInner hwE hDropFull
      rw [renderItems, ← hRdef]
      rw [scanLoop]
      rw [if_neg hne0]
      simp only [hSelf, hPre, Option.getD_some, Option.map_none', Option.getD_none]
      cases hO : findLit addBeginLit R with
      | none =>
          rw [hO] at hOther
          simp only [Option.map_none'] at hOther
          simp only [hOther, Option.getD_none]
          rw [if_neg (by omega : ¬ ((renderItem it ++ R).length = it.p.length))]
          rw [if_neg (by
            push_neg
            intro h
            omega)]
          rw [if_pos (by omega : it.p.length < (renderItem it ++ R).length)]
          simp only [tokenMatchEnd, hwB, hAB, hEnd, hTakeP, hTakeInner, hDropInner, hwE,
            hDropFull]
          cases hfn : f n with
          | accept =>
              simp only [keepDecision, macroLitOf, hk]
              simp [List.append_assoc]
          | reject =>
              simp only [keepDecision, macroLitOf, hk]
              simp [List.append_assoc]
          | quit => simp [hk, endLitOf]
      | some r =>
          rw [hO] at hOther
          simp only [Option.map_some'] at hOther
          simp only [hOther, Option.getD_some]
          rw [if_neg (by omega : ¬ (r + (renderItem it).length = it.p.length))]
          rw [if_neg (by
            push_neg
            intro h
            omega)]
          rw [if_pos (by omega : it.p.length < r + (renderItem it).length)]
          simp only [tokenMatchEnd, hwB, hAB, hEnd, hTakeP, hTakeInner, hDropInner, hwE,
            hDropFull]
          cases hfn : f n with
          | accept =>
              simp only [keepDecision, macroLitOf, hk]
              simp [List.append_assoc]
          | reject =>
              simp only [keepDecision, macroLitOf, hk]
              simp [List.append_assoc]
          | quit => simp [hk, endLitOf]
  | add =>
      rw [hk] at hSelf hOther hwB hAB hEnd hTakeInner hDropInner hwE hDropFull
      simp only [SpanKind.other, beginLitOf, endLitOf] at hSelf hOther hwB hAB
      simp only [SpanKind.other, beginLitOf, endLitOf] at hEnd hTakeInner hDropInner hwE hDropFull
      rw [renderItems, ← hRdef]
      rw [scanLoop]
      rw [if_neg hne0]
      simp only [hSelf, hPre, Option.getD_some, Option.map_none', Option.getD_none]
      cases hO : findLit delBeginLit R with
      | none =>
          rw [hO] at hOther
          simp only [Option.map_none'] at hOther
          simp only [hOther, Option.getD_none]
          rw [if_neg (by omega : ¬ (it.p.length = (renderItem it ++ R).length))]
          rw [if_neg (by
            push_neg
            intro h
            omega)]
          rw [if_neg (by omega : ¬ ((renderItem it ++ R).length < it.p.length))]
          simp only [tokenMatchEnd, hwB, hAB, hEnd, hTakeP, hTakeInner, hDropInner, hwE,
            hDropFull]
          cases hfn : f n with
          | accept =>
              simp only [keepDecision, macroLitOf, hk]
              simp [List.append_assoc]
          | reject =>
              simp only [keepDecision, macroLitOf, hk]
              simp [List.append_assoc]
          | quit => simp [hk, endLitOf]
      | some r =>
          rw [hO] at hOther
          simp only [Option.map_some'] at hOther
          simp only [hOther, Option.getD_some]
          rw [if_neg (by omega : ¬ (it.p.length = r + (renderItem it).length))]
          rw [if_neg (by
            push_neg
            intro h
            omega)]
          rw [if_neg (by omega : ¬ (r + (renderItem it).length < it.p.length))]
          simp only [tokenMatchEnd, hwB, hAB, hEnd, hTakeP, hTakeInner, hDropInner, hwE,
            hDropFull]
          cases hfn : f n with
          | accept =>
              simp only [keepDecision, macroLitOf, hk]
              simp [List.append_assoc]
          | reject =>
              simp only [keepDecision, macroLitOf, hk]
              simp [List.append_assoc]
          | quit => simp [hk, endLitOf]

theorem renderItem_len_pos (it : Item) : 1 ≤ (renderItem it).length := by
  have := beginLitOf_len_pos it.kind
  simp [renderItem]
  omega

/-- Full scan of a well-formed rendered document under non-Quit decisions:
the loop terminates normally, the output is the resolved document, the dirty
flag records whether any decision was an Accept, and one decision is consumed
per span. -/
theorem scanLoop_render (f : Nat → Decision) (L : List Item) (pLast : List Char) :
    ∀ (fuel : Nat) (out : List Char) (n : Nat) (m : Bool),
    (renderItems L pLast).length + 1 ≤ fuel →
    docWF L pLast = true →
    (∀ i, i < L.length → f (n + i) ≠ .quit) →
    scanLoop f fuel (renderItems L pLast) out n m =
      .done (out ++ resolveInit f n L ++ pLast) (m || hasAccept f n L) (n + L.length) := by
  induction L with
  | nil =>
      intro fuel out n m hfuel hWF hq
      obtain ⟨hpf, _⟩ := docWF_nil hWF
      cases fuel with
      | zero => simp [renderItems] at hfuel
      | succ fuel' =>
          rw [renderItems, scanLoop]
          by_cases hnil : pLast = []
          · rw [if_pos hnil]
            simp [resolveInit, hasAccept, hnil]
          · rw [if_neg hnil]
            obtain ⟨h1, h2, _, _, _⟩ := tokenFree_spec hpf
            simp only [h1, h2, Option.getD_none, if_pos rfl]
            simp [resolveInit, hasAccept]
  | cons it rest ih =>
      intro fuel out n m hfuel hWF hq
      have hril := renderItem_len_pos it
      have hlen : (renderItems (it :: rest) pLast).length =
          (renderItem it).length + (renderItems rest pLast).length := by
        rw [renderItems]; simp
      cases fuel with
      | zero => omega
      | succ fuel' =>
          rw [scanLoop_step f fuel' it rest pLast out n m hWF]
          have hq0 : f n ≠ .quit := by
            have := hq 0 (by simp)
            simpa using this
          obtain ⟨hit, hrest⟩ := docWF_cons hWF
          have hfuel' : (renderItems rest pLast).length + 1 ≤ fuel' := by omega
          have hq' : ∀ i, i < rest.length → f (n + 1 + i) ≠ .quit := by
            intro i hi
            have := hq (i + 1) (by simpa using Nat.succ_lt_succ hi)
            simpa [Nat.add_assoc, Nat.add_comm 1 i] using this
          cases hfn : f n with
          | quit => exact absurd hfn hq0
          | accept =>
              rw [ih fuel' _ (n + 1) true hfuel' hrest hq']
              simp only [resolveInit, hasAccept, hfn]
              simp [List.append_assoc]
              omega
          | reject =>
              rw [ih fuel' _ (n + 1) m hfuel' hrest hq']
              have hb : (Decision.reject == Decision.accept) = false := rfl
              simp only [resolveInit, hasAccept, hfn]
              simp [List.append_assoc, hb]
              omega

/-- Scan of a well-formed rendered document when the user quits at the span of
index `pre.length`: the output so far is the resolved prefix followed by the
literal text before the current span; nothing of the current span is in the
output, and the unprocessed remainder starts at the span's end marker. -/
theorem scanLoop_render_quit (f : Nat → Decision) (pre : List Item) (it : Item)
    (post : List Item) (pLast : List Char) :
    ∀ (fuel : Nat) (out : List Char) (n : Nat) (m : Bool),
    (renderItems (pre ++ it :: post) pLast).length + 1 ≤ fuel →
    docWF (pre ++ it :: post) pLast = true →
    (∀ i, i < pre.length → f (n + i) ≠ .quit) →
    f (n + pre.length) = .quit →
    scanLoop f fuel (renderItems (pre ++ it :: post) pLast) out n m =
      .quitAt it.kind (out ++ resolveInit f n pre ++ it.p) (m || hasAccept f n pre)
        (n + pre.length) (endLitOf it.kind ++ (it.wsE ++ renderItems post pLast)) := by
  induction pre with
  | nil =>
      intro fuel out n m hfuel hWF hq hquit
      have hril := renderItem_len_pos it
      have hlen : (renderItems (it :: post) pLast).length =
          (renderItem it).length + (renderItems post pLast).length := by
        rw [renderItems]; simp
      simp only [List.nil_append] at hfuel hWF ⊢
      cases fuel with
      | zero => omega
      | succ fuel' =>
          rw [scanLoop_step f fuel' it post pLast out n m hWF]
          have hq0 : f n = .quit := by simpa using hquit
          rw [hq0]
          simp [resolveInit, hasAccept]
  | cons it' pre' ih =>
      intro fuel out n m hfuel hWF hq hquit
      rw [List.cons_append] at hfuel hWF ⊢
      have hril := renderItem_len_pos it'
      have hlen : (renderItems (it' :: (pre' ++ it :: post)) pLast).length =
          (renderItem it').length + (renderItems (pre' ++ it :: post) pLast).length := by
        rw [renderItems]; simp
      cases fuel with
      | zero => omega
      | succ fuel' =>
          rw [scanLoop_step f fuel' it' (pre' ++ it :: post) pLast out n m hWF]
          have hq0 : f n ≠ .quit := by
            have := hq 0 (by simp)
            simpa using this
          have hWF' : docWF (pre' ++ it :: post) pLast = true :=
            (docWF_cons hWF).2
          have hfuel' : (renderItems (pre' ++ it :: post) pLast).length + 1 ≤ fuel' := by
            omega
          have hq' : ∀ i, i < pre'.length → f (n + 1 + i) ≠ .quit := by
            intro i hi
            have := hq (i + 1) (by simpa using Nat.succ_lt_succ hi)
            simpa [Nat.add_assoc, Nat.add_comm 1 i] using this
          have hquit' : f (n + 1 + pre'.length) = .quit := by
            have : n + 1 + pre'.length = n + (it' :: pre').length := by
              simp [Nat.add_assoc, Nat.add_comm 1]
            rw [this]
            exact hquit
          cases hfn : f n with
          | quit => exact absurd hfn hq0
          | accept =>
              rw [ih fuel' _ (n + 1) true hfuel' hWF' hq' hquit']
              simp only [resolveInit, hasAccept, hfn]
              simp [List.append_assoc]
              omega
          | reject =>
              rw [ih fuel' _ (n + 1) m hfuel' hWF' hq' hquit']
              have hb : (Decision.reject == Decision.accept) = false := rfl
              simp only [resolveInit, hasAccept, hfn]
              simp [List.append_assoc, hb]
              omega

/-! ### The wrapper-stripping step -/

theorem stripSubAux_nil (pat : List Char) (fuel : Nat) : stripSubAux pat fuel [] = [] := by
  cases fuel <;> rfl

theorem findClose_append {arg : List Char} (h : '\x7d' ∉ arg) :
    findClose (arg ++ ['\x7d']) = some (arg, []) := by
  induction arg with
  | nil => rfl
  | cons c r ih =>
      have hc : ¬ c = '\x7d' := fun hc => h (hc ▸ List.mem_cons_self c r)
      have hr : '\x7d' ∉ r := fun hr => h (List.mem_cons_of_mem c hr)
      simp only [List.cons_append, findClose, if_neg hc, List.append_eq, ih hr,
        Option.map_some']

/-- Stripping a wrapper whose argument contains no closing brace yields
exactly the argument. -/
theorem stripSub_wrapper {pat : List Char} (hpat : pat ≠ []) (arg : List Char)
    (harg : '\x7d' ∉ arg) :
    stripSub pat (pat ++ (arg ++ ['\x7d'])) = arg := by
  cases pat with
  | nil => exact absurd rfl hpat
  | cons a pt =>
      show stripSubAux (a :: pt) ((a :: pt) ++ (arg ++ ['\x7d'])).length
        ((a :: pt) ++ (arg ++ ['\x7d'])) = arg
      have hlen : ((a :: pt) ++ (arg ++ ['\x7d'])).length =
          (pt ++ (arg ++ ['\x7d'])).length + 1 := by simp
      rw [hlen, List.cons_append, stripSubAux]
      rw [if_pos (by
        rw [← List.cons_append]
        exact self_prefixOf_append _ _)]
      rw [show (a :: (pt ++ (arg ++ ['\x7d']))).drop (a :: pt).length = arg ++ ['\x7d'] by
        rw [← List.cons_append]
        exact drop_len_append _ _]
      rw [findClose_append harg]
      simp [stripSubAux_nil]

/-- When the wrapper head occurs nowhere in the text, stripping changes
nothing. -/
theorem stripSubAux_noop {pat : List Char} (hpat : pat ≠ []) :
    ∀ (fuel : Nat) (s : List Char), findLit pat s = none → stripSubAux pat fuel s = s := by
  intro fuel
  induction fuel with
  | zero => intro s _; rfl
  | succ fuel ih =>
      intro s hs
      cases s with
      | nil => rfl
      | cons c rest =>
          simp only [findLit] at hs
          by_cases hpre : pat.isPrefixOf (c :: rest) = true
          · rw [if_pos hpre] at hs
            cases hs
          · rw [if_neg hpre, Option.map_eq_none'] at hs
            rw [stripSubAux, if_neg hpre, ih rest hs]

theorem stripSub_noop {pat : List Char} (hpat : pat ≠ []) (s : List Char)
    (hs : findLit pat s = none) : stripSub pat s = s :=
  stripSubAux_noop hpat _ s hs

theorem macroLitOf_ne_nil (k : SpanKind) : macroLitOf k ≠ [] := by
  cases k <;> simp [macroLitOf, addMacroLit, delMacroLit]

/-! ### Claims -/

/-- C1 (counterexample): on the two-span document, accepting the first span
and quitting with "save partial" at the second, the saved text is not the
original document — the Del span's begin marker and inner wrapper are gone
(only its end marker survives), and the accepted Add span is resolved. -/
theorem C1_counterexample :
    reviseFile acceptThenQuit true exTwoSpanDoc = ("A xB \\DIFdelend C".toList, true) ∧
    "A xB \\DIFdelend C".toList ≠ exTwoSpanDoc ∧
    findLit delBeginLit "A xB \\DIFdelend C".toList = none := by decide

/-- C1 (amended): on Quit with "save partial" (offered only when the session
is dirty), the saved text is the resolved prefix, the literal text before the
span under decision, and the suffix of the original document starting at that
span's end marker — the begin marker, wrapper whitespace and inner text of the
span under decision are dropped, so the original is not reproduced
byte-for-byte. -/
theorem C1_partial_save (f : Nat → Decision) (pre : List Item) (it : Item)
    (post : List Item) (pLast : List Char)
    (hWF : docWF (pre ++ it :: post) pLast = true)
    (hq : ∀ i, i < pre.length → f i ≠ .quit) (hquit : f pre.length = .quit)
    (hacc : hasAccept f 0 pre = true) :
    reviseFile f true (renderItems (pre ++ it :: post) pLast) =
      (resolveInit f 0 pre ++ it.p ++
        (endLitOf it.kind ++ (it.wsE ++ renderItems post pLast)), true) := by
  unfold reviseFile scanDoc
  rw [scanLoop_render_quit f pre it post pLast _ [] 0 false (Nat.le_refl _) hWF
    (by simpa using hq) (by simpa using hquit)]
  simp [hacc, List.append_assoc]

/-- C1 (witness): the amended statement evaluated on the two-span document. -/
theorem C1_partial_save_witness :
    reviseFile acceptThenQuit true
      (renderItems ([⟨"A ".toList, .add, " ".toList, "\\DIFadd\x7bx\x7d".toList, " ".toList⟩] ++
        ⟨"B ".toList, .del, [], "\\DIFdel\x7bold\x7d".toList, " ".toList⟩ :: []) "C".toList) =
      (resolveInit acceptThenQuit 0
          [⟨"A ".toList, .add, " ".toList, "\\DIFadd\x7bx\x7d".toList, " ".toList⟩] ++
        "B ".toList ++
        (endLitOf .del ++ (" ".toList ++ renderItems [] "C".toList)), true) :=
  C1_partial_save acceptThenQuit
    [⟨"A ".toList, .add, " ".toList, "\\DIFadd\x7bx\x7d".toList, " ".toList⟩]
    ⟨"B ".toList, .del, [], "\\DIFdel\x7bold\x7d".toList, " ".toList⟩ [] "C".toList
    (by decide) (by decide) (by decide) (by decide)

/-- C2: on a well-formed single-span document, a non-Quit decision resolves
the span by the Accept/Reject truth table — Accept keeps the stripped inner
text of an Add span and drops that of a Del span, Reject does the opposite —
and the output is exactly the surrounding literal text with the kept text in
between: neither sentinel marker is copied.  The dirty flag is set exactly
for Accept, and one decision is consumed. -/
theorem C2_truth_table (p : List Char) (k : SpanKind) (wsB inner wsE pLast : List Char)
    (d : Decision) (hWF : docWF [⟨p, k, wsB, inner, wsE⟩] pLast = true)
    (hd : d ≠ .quit) :
    scanDoc (fun _ => d) (renderItems [⟨p, k, wsB, inner, wsE⟩] pLast) =
      .done (p ++ (if keepDecision k d then stripSub (macroLitOf k) inner else []) ++ pLast)
        (d == Decision.accept) 1 := by
  unfold scanDoc
  rw [scanLoop_render (fun _ => d) [⟨p, k, wsB, inner, wsE⟩] pLast _ [] 0 false
    (Nat.le_refl _) hWF (fun i _ => hd)]
  simp [resolveInit, hasAccept, List.append_assoc]

/-- C2 (witness): Reject on the Del span of the specification's example. -/
theorem C2_truth_table_witness :
    scanDoc (fun _ => .reject)
      (renderItems [⟨"X ".toList, .del, [], "\\DIFdel\x7bold\x7d".toList, " ".toList⟩]
        "Y".toList) =
      .done ("X ".toList ++
        (if keepDecision .del .reject then
          stripSub (macroLitOf .del) "\\DIFdel\x7bold\x7d".toList else []) ++ "Y".toList)
        (Decision.reject == Decision.accept) 1 :=
  C2_truth_table "X ".toList .del [] "\\DIFdel\x7bold\x7d".toList " ".toList "Y".toList
    .reject (by decide) (by decide)

/-- C3 (counterexample): the claimed outputs are wrong — the scanner's marker
regexes consume the markers' trailing whitespace, which is never copied to the
output, so Accept does not give `"A new text B"` and Reject does not give
`"A  B"`. -/
theorem C3_counterexample :
    (scanDoc (fun _ => .accept) exAddDoc).outOf ≠ "A new text B".toList ∧
    (scanDoc (fun _ => .reject) exAddDoc).outOf ≠ "A  B".toList := by decide

/-- C3 (amended): on the single-Add-span example, Accept yields
`"A new textB"` and Reject yields `"A B"` — the space following
`\DIFaddend` is consumed as part of the end-marker match and dropped. -/
theorem C3_example_outputs :
    scanDoc (fun _ => .accept) exAddDoc = .done "A new textB".toList true 1 ∧
    scanDoc (fun _ => .reject) exAddDoc = .done "A B".toList false 1 := by decide

/-- C4 (counterexample): the claimed outputs are wrong — the space after
`\DIFdelend` is consumed by the end-marker match, so Reject does not give
`"X old Y"` and Accept does not give `"X  Y"`. -/
theorem C4_counterexample :
    (scanDoc (fun _ => .reject) exDelDoc).outOf ≠ "X old Y".toList ∧
    (scanDoc (fun _ => .accept) exDelDoc).outOf ≠ "X  Y".toList := by decide

/-- C4 (amended): on the single-Del-span example, Reject yields `"X oldY"`
and Accept yields `"X Y"`. -/
theorem C4_example_outputs :
    scanDoc (fun _ => .reject) exDelDoc = .done "X oldY".toList false 1 ∧
    scanDoc (fun _ => .accept) exDelDoc = .done "X Y".toList true 1 := by decide

/-- C5: the inspector re-run and conditional preamble strip run on the
queue-exhaustion, Add-span-Quit and file-picker-Quit paths, but NOT on the
Del-span-Quit path (`zaphod.py` lines 400-401 call only `generate_pdf` and
`save_changes`); and `remove_preamble` strips the preamble from the
modified-files list exactly when the re-run inspector reports no file with
remaining spans. -/
theorem C5_end_actions :
    ((endOfSessionActions .queueExhausted).contains .removePreambleAct = true ∧
     (endOfSessionActions .quitOnAdd).contains .removePreambleAct = true ∧
     (endOfSessionActions .filePickQuit).contains .removePreambleAct = true ∧
     (endOfSessionActions .quitOnDel).contains .removePreambleAct = false) ∧
    (∀ allFiles modifiedfiles : List (List Char),
      get_modified_latex_files allFiles = [] →
        remove_preamble allFiles modifiedfiles = List.map subPreamble modifiedfiles) ∧
    (∀ allFiles modifiedfiles : List (List Char),
      get_modified_latex_files allFiles ≠ [] →
        remove_preamble allFiles modifiedfiles = modifiedfiles) := by
  refine ⟨by decide, ?_, ?_⟩
  · intro allFiles mods h
    unfold remove_preamble
    rw [if_pos (by simp [h])]
  · intro allFiles mods h
    unfold remove_preamble
    rw [if_neg (by
      intro hlen
      exact h (List.length_eq_zero.mp hlen))]

/-- C5 (witness): evaluated with an empty file set (inspector reports nothing
left) and with a file that still has a span. -/
theorem C5_end_actions_witness :
    remove_preamble ([] : List (List Char)) [exAddDoc] = List.map subPreamble [exAddDoc] ∧
    remove_preamble [exOneDelDoc] [exAddDoc] = [exAddDoc] :=
  ⟨C5_end_actions.2.1 [] [exAddDoc] (by decide),
   C5_end_actions.2.2 [exOneDelDoc] [exAddDoc] (by decide)⟩

/-- C6 (counterexample): a single Reject decision is applied (one decision is
consumed and the span is resolved), yet the dirty flag is still `false` — the
source sets `self.modified` only on Accept. -/
theorem C6_counterexample :
    scanDoc (fun _ => .reject) exOneDelDoc = .done "o".toList false 1 := by decide

/-- C6 (amended): after a full scan of a well-formed document under non-Quit
decisions, the dirty flag is set if and only if at least one decision was an
Accept; Reject decisions never set it, so a Quit after only Rejects finds the
session clean and is not offered the partial save. -/
theorem C6_dirty_iff_accept (f : Nat → Decision) (L : List Item) (pLast : List Char)
    (hWF : docWF L pLast = true) (hq : ∀ i, f i ≠ .quit) :
    (scanDoc f (renderItems L pLast)).modFlag = hasAccept f 0 L := by
  unfold scanDoc
  rw [scanLoop_render f L pLast _ [] 0 false (Nat.le_refl _) hWF (fun i _ => hq (0 + i))]
  simp [ScanResult.modFlag]

/-- C6 (witness): the amended statement on the single-Del-span document under
Reject. -/
theorem C6_dirty_iff_accept_witness :
    (scanDoc (fun _ => .reject)
      (renderItems [⟨[], .del, [], "\\DIFdel\x7bo\x7d".toList, []⟩] [])).modFlag =
      hasAccept (fun _ => .reject) 0 [⟨[], .del, [], "\\DIFdel\x7bo\x7d".toList, []⟩] :=
  C6_dirty_iff_accept (fun _ => .reject) [⟨[], .del, [], "\\DIFdel\x7bo\x7d".toList, []⟩] []
    (by decide) (fun i => (by decide : Decision.reject ≠ Decision.quit))

/-- C7: a begin marker with no end marker of the same kind after it makes the
scan fail (the end-marker search returns `None` and the subsequent attribute
access raises, surfacing the failure), and nothing is written: the file
content is unchanged. -/
theorem C7_malformed (f : Nat → Decision) (savePartial : Bool) (k : SpanKind)
    (doc : List Char) (s : Nat)
    (hpre : findLit preBeginLit doc = none)
    (hother : findLit (beginLitOf k.other) doc = none)
    (hbegin : findLit (beginLitOf k) doc = some s)
    (hend : findLit (endLitOf k) (doc.drop (tokenMatchEnd (beginLitOf k) doc s)) = none) :
    scanDoc f doc = .malformed k (doc.take s) false 0 ∧
    reviseFile f savePartial doc = (doc, false) := by
  have hslt : s < doc.length := findLit_bound (beginLitOf_ne_nil k) hbegin
  have hdocne : doc ≠ [] := by
    intro h
    rw [h] at hslt
    simp at hslt
  have h1 : scanDoc f doc = .malformed k (doc.take s) false 0 := by
    unfold scanDoc
    rw [scanLoop]
    rw [if_neg hdocne]
    have hPre : findPreamble doc = none := findPreamble_none hpre
    cases k with
    | del =>
        simp only [SpanKind.other, beginLitOf, endLitOf] at hother hbegin hend
        simp only [hbegin, hother, hPre, Option.getD_some, Option.getD_none,
          Option.map_none']
        rw [if_neg (by omega : ¬ ((doc.length : Nat) = s))]
        rw [if_neg (by
          push_neg
          intro h
          omega)]
        rw [if_pos (by omega : s < doc.length)]
        rw [hend]
        simp
    | add =>
        simp only [SpanKind.other, beginLitOf, endLitOf] at hother hbegin hend
        simp only [hbegin, hother, hPre, Option.getD_some, Option.getD_none,
          Option.map_none']
        rw [if_neg (by omega : ¬ ((s : Nat) = doc.length))]
        rw [if_neg (by
          push_neg
          intro h
          omega)]
        rw [if_neg (by omega : ¬ ((doc.length : Nat) < s))]
        rw [hend]
        simp
  refine ⟨h1, ?_⟩
  unfold reviseFile
  rw [h1]

/-- C7 (witness): a dangling `\DIFaddbegin` aborts the scan and leaves the
file unchanged. -/
theorem C7_malformed_witness :
    scanDoc (fun _ => .accept) exMalformedDoc =
      .malformed .add (exMalformedDoc.take 0) false 0 ∧
    reviseFile (fun _ => .accept) true exMalformedDoc = (exMalformedDoc, false) :=
  C7_malformed (fun _ => .accept) true .add exMalformedDoc 0
    (by decide) (by decide) (by decide) (by decide)

/-- C8 (counterexample): the wrapper argument is cut at the FIRST closing
brace (the group is non-greedy), so an argument with nested balanced braces is
not recovered: stripping `\DIFdel{a{b}c}` yields `a{bc}`, not `a{b}c`. -/
theorem C8_counterexample :
    stripSub delMacroLit "\\DIFdel\x7ba\x7bb\x7dc\x7d".toList = "a\x7bbc\x7d".toList ∧
    "a\x7bbc\x7d".toList ≠ "a\x7bb\x7dc".toList := by decide

/-- C8 (amended): for either kind, stripping the wrapper head applied to an
argument containing no closing brace (possibly spanning multiple lines) yields
exactly the argument, and inner text in which the wrapper head does not occur
is passed through unchanged. -/
theorem C8_strip (k : SpanKind) :
    (∀ arg : List Char, '\x7d' ∉ arg →
      stripSub (macroLitOf k) (macroLitOf k ++ (arg ++ ['\x7d'])) = arg) ∧
    (∀ inner : List Char, findLit (macroLitOf k) inner = none →
      stripSub (macroLitOf k) inner = inner) :=
  ⟨fun arg h => stripSub_wrapper (macroLitOf_ne_nil k) arg h,
   fun inner h => stripSub_noop (macroLitOf_ne_nil k) inner h⟩

/-- C8 (witness): a multi-line argument is recovered exactly; wrapper-free
text passes through. -/
theorem C8_strip_witness :
    stripSub (macroLitOf .add) (macroLitOf .add ++ ("new\ntext".toList ++ ['\x7d'])) =
      "new\ntext".toList ∧
    stripSub (macroLitOf .del) "plain text".toList = "plain text".toList :=
  ⟨(C8_strip .add).1 "new\ntext".toList (by decide),
   (C8_strip .del).2 "plain text".toList (by decide)⟩

/-- C9: a document with no Del or Add begin marker is resolved as a no-op:
the whole text is copied, no decision is consumed, the dirty flag stays
clear — and a second full resolution of the (identical) output again changes
nothing; the written file equals the input. -/
theorem C9_noop (f g : Nat → Decision) (doc : List Char)
    (hdel : findLit delBeginLit doc = none) (hadd : findLit addBeginLit doc = none) :
    scanDoc f doc = .done doc false 0 ∧
    scanDoc g ((scanDoc f doc).outOf) = .done ((scanDoc f doc).outOf) false 0 ∧
    reviseFile f true doc = (doc, true) := by
  have key : ∀ h : Nat → Decision, scanDoc h doc = .done doc false 0 := by
    intro h
    unfold scanDoc
    rw [scanLoop]
    by_cases hnil : doc = []
    · rw [if_pos hnil, hnil]
    · rw [if_neg hnil]
      simp only [hdel, hadd, Option.getD_none, if_pos rfl]
      simp
  refine ⟨key f, ?_, ?_⟩
  · rw [key f]
    exact key g
  · unfold reviseFile
    rw [key f]

/-- C9 (witness): the no-op statement on a sentinel-free document. -/
theorem C9_noop_witness :
    scanDoc (fun _ => .accept) "hello world".toList =
      .done "hello world".toList false 0 ∧
    scanDoc (fun _ => .reject)
        ((scanDoc (fun _ => .accept) "hello world".toList).outOf) =
      .done ((scanDoc (fun _ => .accept) "hello world".toList).outOf) false 0 ∧
    reviseFile (fun _ => .accept) true "hello world".toList =
      ("hello world".toList, true) :=
  C9_noop (fun _ => .accept) (fun _ => .reject) "hello world".toList
    (by decide) (by decide)

/-- C10 (counterexample): the output of a fully resolved, well-formed
document can still contain a sentinel token pattern: resolving
`exBoundaryDoc` with Accept yields `x \DIFaddbeginy`, which contains the
`\DIFaddbegin` pattern (assembled from the literal text and the kept inner
text across a concatenation boundary). -/
theorem C10_counterexample :
    scanDoc (fun _ => .accept) exBoundaryDoc = .done "x \\DIFaddbeginy".toList true 1 ∧
    (findLit addBeginLit "x \\DIFaddbeginy".toList).isSome = true := by decide

/-- C10 (amended): full resolution of a well-formed document under non-Quit
decisions consumes the whole document and outputs exactly the literal
segments interleaved with the kept stripped inner texts, in order — no marker
text of the input is ever copied to output (though sentinel-shaped byte
sequences can still arise at concatenation boundaries or from wrapper
stripping, as the counterexample shows). -/
theorem C10_resolved_output (f : Nat → Decision) (L : List Item) (pLast : List Char)
    (hWF : docWF L pLast = true) (hq : ∀ i, f i ≠ .quit) :
    scanDoc f (renderItems L pLast) =
      .done (resolveItems f 0 L pLast) (hasAccept f 0 L) L.length := by
  unfold scanDoc resolveItems
  rw [scanLoop_render f L pLast _ [] 0 false (Nat.le_refl _) hWF (fun i _ => hq (0 + i))]
  simp

/-- C10 (witness): the amended statement on the boundary document. -/
theorem C10_resolved_output_witness :
    scanDoc (fun _ => .accept)
      (renderItems [⟨"x \\DIFaddbegi".toList, .add, " ".toList,
        "\\DIFadd\x7bn\x7d".toList, " ".toList⟩] "y".toList) =
      .done (resolveItems (fun _ => .accept) 0
        [⟨"x \\DIFaddbegi".toList, .add, " ".toList, "\\DIFadd\x7bn\x7d".toList,
          " ".toList⟩] "y".toList)
        (hasAccept (fun _ => .accept) 0
          [⟨"x \\DIFaddbegi".toList, .add, " ".toList, "\\DIFadd\x7bn\x7d".toList,
            " ".toList⟩]) 1 :=
  C10_resolved_output (fun _ => .accept)
    [⟨"x \\DIFaddbegi".toList, .add, " ".toList, "\\DIFadd\x7bn\x7d".toList, " ".toList⟩]
    "y".toList (by decide) (fun i => (by decide : Decision.accept ≠ Decision.quit))

end Zaphod
